import Mathlib

/-!
Verification of pymind's training module (`pymind/training.py`):
a shallow embedding of `create_costfn` (forward cost + backpropagation
gradient) and `train` (multi-restart minimization), together with the
flatten/reshape utilities and the external network forward pass modelled
from the specification where the repository file is not available.

Matrices are lists of rows over `ℚ` (numpy matrices of floats, modelled
with exact rationals).
-/

/-- A matrix: a list of rows. -/
abbrev Mat : Type := List (List ℚ)

/-- Number of columns of a matrix (length of its first row; numpy matrices
are rectangular). -/
def numCols (M : Mat) : Nat := (M.headD []).length

/-- Shape `(rows, cols)` of a matrix, as numpy's `.shape`. -/
def shapeOf (M : Mat) : Nat × Nat := (M.length, numCols M)

/-- The matrix is rectangular: every row has length `numCols`. -/
def rect (M : Mat) : Prop := ∀ r ∈ M, r.length = numCols M

/-- Transpose: entry `(j, i)` of the result is entry `(i, j)` of the input.
Defined by indexing so that the result always has `numCols M` rows of
length `M.length`. -/
def transposeM (M : Mat) : Mat :=
  (List.range (numCols M)).map (fun j => M.map (fun r => r.getD j 0))

/-- Dot product of two rows (`zipWith` multiply, summed). -/
def dotR (u v : List ℚ) : ℚ := (List.zipWith (· * ·) u v).sum

/-- Matrix product `A · B` (numpy `*` on matrices). -/
def matMul (A B : Mat) : Mat :=
  A.map (fun r => (transposeM B).map (fun c => dotR r c))

/-- Elementwise (Hadamard) product, numpy `np.multiply`. -/
def hadamard (A B : Mat) : Mat := List.zipWith (List.zipWith (· * ·)) A B

/-- Apply a scalar function elementwise (activation `grad` on a matrix). -/
def emap (f : ℚ → ℚ) (M : Mat) : Mat := M.map (fun r => r.map f)

/-- Apply a binary scalar function elementwise to two same-shaped matrices
(error-function `grad(h, y)`). -/
def ezip (f : ℚ → ℚ → ℚ) (A B : Mat) : Mat :=
  List.zipWith (List.zipWith f) A B

/-- Scalar multiple of a matrix. -/
def smulM (c : ℚ) (M : Mat) : Mat := emap (fun x => c * x) M

/-- Drop the first `b` columns of a matrix: numpy `M[:, b:]`. -/
def dropColsN (b : Nat) (M : Mat) : Mat := M.map (fun r => r.drop b)

/-- `addFromCol b U R` adds `R` onto the columns of `U` starting at column
`b`, leaving columns `0..b-1` of `U` unchanged: the numpy in-place update
`grad[:, b:] += reg` of `training.py` line 147. -/
def addFromCol (b : Nat) (U R : Mat) : Mat :=
  List.zipWith (fun u r => u.take b ++ List.zipWith (· + ·) (u.drop b) r) U R

/-- A network layer as consumed by `training.py`: only the activation
function and its derivative are used (`layer.activationfn` / `.grad`). -/
structure Layer where
  act : ℚ → ℚ
  actGrad : ℚ → ℚ

/-- The network object as consumed by `training.py`: ordered layers, an
ordered list of weight matrices (mutable in the source; threaded
explicitly here) and the bias flag. -/
structure Network where
  layers : List Layer
  weights : List Mat
  bias : Bool

/-- An error function capability: the per-element error term summed into
the cost, and its derivative `grad(h, y)` with respect to `h`. -/
structure ErrFn where
  cost : ℚ → ℚ → ℚ
  grad : ℚ → ℚ → ℚ

/-- The delta (backpropagated error signal) loop of `training.py`
lines 130–134: `for i in xrange(len(nnet.layers) - 2, 0, -1):
d.appendleft(step i d[0])`, starting from the accumulator that already
holds the seeded last-layer delta. `deltaLoop step i acc` runs the loop
body for indices `i, i-1, ..., 1`. -/
def deltaLoop (step : Nat → Mat → Mat) : Nat → List Mat → List Mat
  | 0, acc => acc
  | i + 1, acc => deltaLoop step i (step (i + 1) (acc.headD []) :: acc)

/-- The delta-computation step for hidden layer `i` (`training.py`
line 134): `np.multiply(activationfn.grad(z[i]), weight[:, bias:].T * prevD)`. -/
def deltaStep (net : Network) (w : List Mat) (b : Nat) (z : List Mat)
    (i : Nat) (prevD : Mat) : Mat :=
  hadamard (emap ((net.layers.getD i ⟨id, id⟩).actGrad) (z.getD i []))
    (matMul (transposeM (dropColsN b (w.getD i []))) prevD)

/-- The seeded last-layer delta (`training.py` line 128):
`np.multiply(nnet.layers[-1].activationfn.grad(z[-1]), errfn.grad(h, y))`. -/
def deltaSeed (net : Network) (errfn : ErrFn) (z : List Mat) (h y : Mat) : Mat :=
  hadamard (emap ((net.layers.getLastD ⟨id, id⟩).actGrad) (z.getLastD []))
    (ezip errfn.grad h y)

/-- The full delta list of `training.py` lines 125–136: seed the last
layer, run the backward loop down to index 1, then prepend the filler
(`None`, modelled as `none`) for index 0. -/
def deltas (net : Network) (errfn : ErrFn) (z : List Mat) (h y : Mat)
    (w : List Mat) (b : Nat) : List (Option Mat) :=
  none ::
    (deltaLoop (deltaStep net w b z) (net.layers.length - 2)
        [deltaSeed net errfn z h y]).map some

/-- Reference top-down solution of the delta recurrence: `dTopDown L step
seed k` is `d[L-1-k]`, i.e. `dTopDown ... 0` is the seed and each further
step applies the recurrence one layer lower. -/
def dTopDown (L : Nat) (step : Nat → Mat → Mat) (seed : Mat) : Nat → Mat
  | 0 => seed
  | k + 1 => step (L - 2 - k) (dTopDown L step seed k)

/-- `dIdx L step seed i` is the delta at layer index `i` (for `1 ≤ i ≤ L-1`). -/
def dIdx (L : Nat) (step : Nat → Mat → Mat) (seed : Mat) (i : Nat) : Mat :=
  dTopDown L step seed (L - 1 - i)

lemma dIdx_last (L : Nat) (step : Nat → Mat → Mat) (seed : Mat) :
    dIdx L step seed (L - 1) = seed := by
  unfold dIdx
  have h : L - 1 - (L - 1) = 0 := by omega
  rw [h]
  rfl

lemma dIdx_rec (L : Nat) (step : Nat → Mat → Mat) (seed : Mat) (i : Nat)
    (h1 : 1 ≤ i) (h2 : i ≤ L - 2) :
    dIdx L step seed i = step i (dIdx L step seed (i + 1)) := by
  unfold dIdx
  have hk : L - 1 - i = (L - 1 - (i + 1)) + 1 := by omega
  rw [hk]
  have hi : L - 2 - (L - 1 - (i + 1)) = i := by omega
  simp [dTopDown, hi]

/-- The backward loop produces exactly the top-down recurrence values in
ascending layer order: running from index `n` with accumulator headed by
`g (n+1)` yields `g 1, ..., g n` prepended. -/
lemma deltaLoop_eq (step : Nat → Mat → Mat) (g : Nat → Mat) :
    ∀ (n : Nat) (rest : List Mat),
      (∀ i, 1 ≤ i → i ≤ n → g i = step i (g (i + 1))) →
      deltaLoop step n (g (n + 1) :: rest) =
        (List.range' 1 n).map g ++ (g (n + 1) :: rest) := by
  intro n
  induction n with
  | zero => intro rest _; simp [deltaLoop]
  | succ m ih =>
    intro rest hrec
    have hstep : step (m + 1) (g (m + 2)) = g (m + 1) := by
      have := hrec (m + 1) (by omega) (by omega)
      exact this.symm
    have : deltaLoop step (m + 1) (g (m + 2) :: rest) =
        deltaLoop step m (g (m + 1) :: g (m + 2) :: rest) := by
      simp [deltaLoop, hstep]
    rw [this, ih (g (m + 2) :: rest) (fun i h1 h2 => hrec i h1 (by omega))]
    rw [List.range'_1_concat, Nat.add_comm 1 m]
    simp

lemma deltas_eq (net : Network) (errfn : ErrFn) (z : List Mat) (h y : Mat)
    (w : List Mat) (b : Nat) (hL : 2 ≤ net.layers.length) :
    deltas net errfn z h y w b =
      none ::
        ((List.range' 1 (net.layers.length - 2)).map
            (dIdx net.layers.length (deltaStep net w b z)
              (deltaSeed net errfn z h y)) ++
          [deltaSeed net errfn z h y]).map some := by
  unfold deltas
  congr 1
  congr 1
  have hseed : dIdx net.layers.length (deltaStep net w b z)
      (deltaSeed net errfn z h y) ((net.layers.length - 2) + 1) =
      deltaSeed net errfn z h y := by
    have : (net.layers.length - 2) + 1 = net.layers.length - 1 := by omega
    rw [this, dIdx_last]
  calc deltaLoop (deltaStep net w b z) (net.layers.length - 2)
        [deltaSeed net errfn z h y]
      = deltaLoop (deltaStep net w b z) (net.layers.length - 2)
        (dIdx net.layers.length (deltaStep net w b z)
          (deltaSeed net errfn z h y) ((net.layers.length - 2) + 1) :: []) := by
        rw [hseed]
    _ = _ := by
        rw [deltaLoop_eq (deltaStep net w b z) _ (net.layers.length - 2) []
          (fun i h1 h2 => dIdx_rec _ _ _ i h1 h2)]
        rw [hseed]

/-- The gradient-assembly loop of `training.py` lines 139–148: for each
trainable weight layer `i`, the unregularized term `(1/m) * d[i+1] * a[i].T`,
the regularization term `(learn_rate/m) * weights[i][:, bias:]` added onto
the non-bias columns. -/
def calc_grads (d : List (Option Mat)) (a : List Mat) (w : List Mat)
    (lr m : ℚ) (b : Nat) : List Mat :=
  (List.range w.length).map (fun i =>
    addFromCol b
      (smulM (1 / m) (matMul ((d.getD (i + 1) none).getD []) (transposeM (a.getD i []))))
      (smulM (lr / m) (dropColsN b (w.getD i []))))

/-- Dimension-mismatch failures (numpy `ValueError`), tagged by the
operation that raised them. -/
inductive DimErr where
  | colsMismatch : DimErr
  | matMulDim : DimErr
  | layerCount : DimErr
  | errShape : DimErr
deriving DecidableEq, Repr

/-- Checked matrix product: numpy raises a `ValueError` when the inner
dimensions disagree. -/
def matMulE (A B : Mat) : Except DimErr Mat :=
  if numCols A = B.length then .ok (matMul A B) else .error .matMulDim

/-- Prepend the bias row of ones when the network uses bias units
(part of the spec-modelled forward pass). -/
def augBias (bias : Bool) (M : Mat) : Mat :=
  if bias then (List.replicate (numCols M) 1) :: M else M

/-- Modelled from the spec: the network's forward propagation, the part of
`NeuralNetwork.calculateCost` (pymind/components, not under src/) that
produces per-layer pre-activations and activations. `fs` are the
activation functions of layers `1..L-1`, `ws` the weight matrices, `ain`
the (bias-augmented) activation entering the current layer. Hidden-layer
activations are bias-augmented; the final activation (the hypothesis) is
not. Returns the `z` and `a` lists for layers `1..L-1`. -/
def forwardPass (bias : Bool) : List (ℚ → ℚ) → List Mat → Mat →
    Except DimErr (List Mat × List Mat)
  | [], [], _ => .ok ([], [])
  | f :: fs, wmat :: ws, ain => do
    let zi ← matMulE wmat ain
    let araw := emap f zi
    let ai := if fs.isEmpty then araw else augBias bias araw
    let rest ← forwardPass bias fs ws ai
    pure (zi :: rest.1, ai :: rest.2)
  | _, _, _ => .error .layerCount

/-- Sum of the squares of all entries of the non-bias columns of the
weight matrices (the regularization penalty, bias excluded). -/
def regSquares (b : Nat) (ws : List Mat) : ℚ :=
  (ws.map (fun M => ((dropColsN b M).map (fun r => (r.map (fun x => x * x)).sum)).sum)).sum

/-- Modelled from the spec: `NeuralNetwork.calculateCost(X, y, errfn,
learn_rate)` (pymind/components, not under src/). Returns `(z, a, cost)`
with `z[i]` the pre-activation and `a[i]` the activation of layer `i`
(`z[0] = X`, `a[0]` the bias-augmented input), and `cost` the regularized
scalar error over the batch: the per-example error summed and divided by
`m` plus `learn_rate/(2m)` times the squared non-bias weights. Raises a
dimension mismatch when the column counts of `X` and `y` disagree, when a
weight matrix does not fit its input, or when the hypothesis and `y`
shapes disagree. -/
def calculateCost (net : Network) (X y : Mat) (errfn : ErrFn) (lr : ℚ) :
    Except DimErr (List Mat × List Mat × ℚ) := do
  if numCols X = numCols y then
    let a0 := augBias net.bias X
    let fa ← forwardPass net.bias (net.layers.tail.map Layer.act) net.weights a0
    let aList := a0 :: fa.2
    let h := aList.getLastD []
    if shapeOf h = shapeOf y then
      let m : ℚ := (numCols X : ℚ)
      let b := if net.bias then 1 else 0
      let cost := ((ezip errfn.cost h y).map List.sum).sum / m +
        lr * regSquares b net.weights / (2 * m)
      pure (X :: fa.1, aList, cost)
    else
      throw .errShape
  else
    throw .colsMismatch

/-- One invocation's outcome of the cost function: the diagnostic lines it
printed, its return value or the re-raised error, and the network state it
leaves behind. -/
structure CostCall where
  logs : List String
  out : Except DimErr (ℚ × Option (List Mat))
  net : Network

/-- The diagnostic printed by `costfn` on a `ValueError`
(`training.py` line 154). -/
def costfnDiag : String :=
  "Calculating cost of a neural network failed. Most likely due to dimension mismatch."

/-- The body of `costfn` (`training.py` lines 112–152), inside the `try`:
install the weights, run the forward pass, and when `computeGrad` is set
compute the deltas and assemble the gradients. The network state passed
in already has the weights installed (line 113). -/
def costfnBody (computeGrad : Bool) (errfn : ErrFn) (lr : ℚ) (X y : Mat)
    (net : Network) : Except DimErr (ℚ × Option (List Mat)) := do
  let m : ℚ := (numCols X : ℚ)
  let b := if net.bias then 1 else 0
  let zac ← calculateCost net X y errfn lr
  let z := zac.1
  let a := zac.2.1
  let cost := zac.2.2
  let h := a.getLastD []
  if computeGrad then
    let d := deltas net errfn z h y net.weights b
    pure (cost, some (calc_grads d a net.weights lr m b))
  else
    pure (cost, none)

/-- `create_costfn` (`training.py` lines 71–156). The returned closure
mutates the captured network; here the network state is passed in and
returned explicitly per call. Line 113 installs the weights argument into
the network; the `try`/`except ValueError` wrapper prints one diagnostic
and re-raises. -/
def create_costfn (X y : Mat) (lr : ℚ) (errfn : ErrFn) (computeGrad : Bool)
    (w : List Mat) (net : Network) : CostCall :=
  let net' : Network := { net with weights := w }
  match costfnBody computeGrad errfn lr X y net' with
  | .ok v => ⟨[], .ok v, net'⟩
  | .error e => ⟨[costfnDiag], .error e, net'⟩

/-- Modelled from the spec: `util.unroll_matrices` (pymind/util, not under
src/) — unroll all weight matrices in layer order, row-major within each
matrix, into a single flat vector. -/
def unroll_matrices (ms : List Mat) : List ℚ :=
  (ms.map (fun M => M.flatten)).flatten

/-- A matrix of `r` rows and `c` columns filled row-major from `xs`
(helper for `reshape_vector`). -/
def rowsOf (r c : Nat) (xs : List ℚ) : Mat :=
  (List.range r).map (fun i => ((xs.drop (i * c)).take c))

/-- Modelled from the spec: `util.reshape_vector` (pymind/util, not under
src/) — the inverse of `unroll_matrices`: cut the flat vector into
per-layer matrices following the `dimensions` descriptor, row-major. -/
def reshape_vector (v : List ℚ) : List (Nat × Nat) → List Mat
  | [] => []
  | (r, c) :: ds => rowsOf r c (v.take (r * c)) :: reshape_vector (v.drop (r * c)) ds

/-- Modelled from the spec: the network's `dimensions` property — the
per-layer weight shapes `(rows, cols)`. -/
def dimensionsOf (ws : List Mat) : List (Nat × Nat) := ws.map shapeOf

/-- One invocation's outcome of the flattened cost adapter. -/
structure FlatCall where
  logs : List String
  out : Except DimErr (ℚ × List ℚ)
  net : Network

/-- `flattened_costfn` (`training.py` lines 42–53): reshape the flat
weight vector with the captured `dimensions`, call the factory's cost
function, and unroll the returned gradient; an error raised by the cost
function propagates unchanged. -/
def flattened_costfn (X y : Mat) (lr : ℚ) (errfn : ErrFn)
    (dims : List (Nat × Nat)) (v : List ℚ) (net : Network) : FlatCall :=
  let c := create_costfn X y lr errfn true (reshape_vector v dims) net
  match c.out with
  | .ok (cost, og) => ⟨c.logs, .ok (cost, unroll_matrices (og.getD [])), c.net⟩
  | .error e => ⟨c.logs, .error e, c.net⟩

/-- `computeNumericalGradient` (`test/nntrainer_test.py` lines 38–51):
central-difference approximation of the gradient — perturb each weight
component by `±e`, evaluate the cost, and divide the difference by `2e`.
`costFn` returns a `(cost, gradient)` pair of which only the cost is used. -/
def computeNumericalGradient {α : Type} (costFn : List ℚ → ℚ × α)
    (weights : List ℚ) (e : ℚ) : List ℚ :=
  (List.range weights.length).map (fun i =>
    let w := weights.getD i 0
    let c_inc := (costFn (weights.set i (w + e))).1
    let c_dec := (costFn (weights.set i (w - e))).1
    (c_inc - c_dec) / (2 * e))

/-- A minimizer result (scipy.optimize-style), as consumed by `train`:
`success`, the final coordinate `x`, and the final value `fun`
(named `fval` here since `fun` is reserved). -/
structure MinResult where
  success : Bool
  x : List ℚ
  fval : ℚ
deriving DecidableEq, Repr

/-- One restart of `train`'s loop, with its external effects: the weights
`resetWeights()` installed, the minimizer's returned result, and the
weights the minimizer's cost-function calls left installed in the network
when it returned. -/
structure RestartRun where
  wReset : List Mat
  minOut : MinResult
  wAfter : List Mat

/-- The best-result bookkeeping of `train` (`training.py` lines 61–63):
replace the current `(best_result, min_error)` only when the new result
succeeded and strictly improves `min_error` (initially `+infinity`,
modelled as `⊤` in `WithTop ℚ`). -/
def trainStep (st : Option MinResult × WithTop ℚ) (r : MinResult) :
    Option MinResult × WithTop ℚ :=
  if r.success = true ∧ (r.fval : WithTop ℚ) < st.2 then (some r, (r.fval : WithTop ℚ))
  else st

/-- One iteration of `train`'s restart loop (`training.py` lines 57–63):
reset the network's weights, run the minimizer (modelled by the
`RestartRun`'s recorded result and final network weights), and update the
best-result state. -/
def trainIter (st : (Option MinResult × WithTop ℚ) × Network) (run : RestartRun) :
    (Option MinResult × WithTop ℚ) × Network :=
  let net1 : Network := { st.2 with weights := run.wReset }
  let net2 : Network := { net1 with weights := run.wAfter }
  (trainStep st.1 run.minOut, net2)

/-- `train` (`training.py` lines 7–69): capture `dimensions`, loop over
the restarts keeping the best successful result, and finally — only when
some restart succeeded — install the best result's reshaped weights into
the network. Returns the best result (or `none`) and the final network
state. -/
def train (net0 : Network) (runs : List RestartRun) : Option MinResult × Network :=
  let dims := dimensionsOf net0.weights
  let st := runs.foldl trainIter ((none, (⊤ : WithTop ℚ)), net0)
  match st.1.1 with
  | some r => (some r, { st.2 with weights := reshape_vector r.x dims })
  | none => (none, st.2)

/-- The best-result component of the restart loop depends only on the
minimizer results. -/
lemma train_foldl_fst (runs : List RestartRun) :
    ∀ (st : Option MinResult × WithTop ℚ) (net : Network),
      (runs.foldl trainIter (st, net)).1 =
        (runs.map (fun run => run.minOut)).foldl trainStep st := by
  induction runs with
  | nil => intro st net; rfl
  | cons run rest ih =>
    intro st net
    simp only [List.foldl_cons, List.map_cons]
    exact ih _ _

/-- The network component of the restart loop ends with the last restart's
final weights (or untouched when there is no restart). -/
lemma train_foldl_net (runs : List RestartRun) :
    ∀ (st : Option MinResult × WithTop ℚ) (net : Network),
      (runs.foldl trainIter (st, net)).2 =
        (match runs.getLast? with
          | none => net
          | some run => { net with weights := run.wAfter }) := by
  induction runs with
  | nil => intro st net; rfl
  | cons run rest ih =>
    intro st net
    simp only [List.foldl_cons, trainIter]
    rw [ih]
    cases rest with
    | nil => rfl
    | cons r2 rest2 =>
      obtain ⟨x, hx⟩ : ∃ x, (r2 :: rest2).getLast? = some x :=
        ⟨(r2 :: rest2).getLast (by simp), List.getLast?_eq_getLast_of_ne_nil (by simp)⟩
      rw [List.getLast?_cons_cons, hx]

/-- Unfolding of one bookkeeping step when the current best is `b`:
the strict `<` comparison against `min_error = b.fval`. -/
lemma trainStep_some (b : MinResult) (r : MinResult) :
    trainStep (some b, (b.fval : WithTop ℚ)) r =
      (if r.success = true ∧ r.fval < b.fval then (some r, (r.fval : WithTop ℚ))
        else (some b, (b.fval : WithTop ℚ))) := by
  unfold trainStep
  simp [WithTop.coe_lt_coe]

/-- Unfolding of one bookkeeping step at the initial state: any successful
result beats `min_error = +infinity`. -/
lemma trainStep_none (r : MinResult) :
    trainStep (none, (⊤ : WithTop ℚ)) r =
      (if r.success = true then (some r, (r.fval : WithTop ℚ))
        else (none, (⊤ : WithTop ℚ))) := by
  unfold trainStep
  by_cases hs : r.success = true <;> simp [hs, WithTop.coe_lt_top]

/-- Characterization of the bookkeeping fold starting from a current best
`b`: either no later result strictly improves on `b` and the state is
unchanged, or the final best is the first result attaining the minimum
value among the strict improvements. -/
lemma foldl_trainStep_some :
    ∀ (l : List MinResult) (b : MinResult),
      (l.foldl trainStep (some b, (b.fval : WithTop ℚ)) =
          (some b, (b.fval : WithTop ℚ)) ∧
        ∀ r ∈ l, r.success = true → b.fval ≤ r.fval) ∨
      (∃ i r, l.get? i = some r ∧
        l.foldl trainStep (some b, (b.fval : WithTop ℚ)) =
          (some r, (r.fval : WithTop ℚ)) ∧
        r.success = true ∧ r.fval < b.fval ∧
        (∀ j rj, l.get? j = some rj → rj.success = true → r.fval ≤ rj.fval) ∧
        (∀ j, j < i → ∀ rj, l.get? j = some rj → rj.success = true →
          r.fval < rj.fval)) := by
  intro l
  induction l with
  | nil =>
    intro b
    left
    exact ⟨rfl, by simp⟩
  | cons r0 rest ih =>
    intro b
    rw [List.foldl_cons, trainStep_some]
    by_cases hc : r0.success = true ∧ r0.fval < b.fval
    · rw [if_pos hc]
      rcases ih r0 with ⟨heq, hall⟩ | ⟨i, r, hget, heq, hsucc, hlt, hmin, hfirst⟩
      · right
        refine ⟨0, r0, rfl, heq, hc.1, hc.2, ?_, ?_⟩
        · intro j rj hj hsj
          cases j with
          | zero =>
            simp only [List.get?_cons_zero] at hj
            cases hj
            exact le_refl _
          | succ j' =>
            simp only [List.get?_cons_succ] at hj
            exact hall rj (List.get?_mem hj) hsj
        · intro j hj
          omega
      · right
        refine ⟨i + 1, r, by simpa using hget, heq, hsucc, lt_trans hlt hc.2, ?_, ?_⟩
        · intro j rj hj hsj
          cases j with
          | zero =>
            simp only [List.get?_cons_zero] at hj
            cases hj
            exact le_of_lt hlt
          | succ j' =>
            simp only [List.get?_cons_succ] at hj
            exact hmin j' rj hj hsj
        · intro j hj rj hjget hsj
          cases j with
          | zero =>
            simp only [List.get?_cons_zero] at hjget
            cases hjget
            exact hlt
          | succ j' =>
            simp only [List.get?_cons_succ] at hjget
            exact hfirst j' (by omega) rj hjget hsj
    · rw [if_neg hc]
      have hskip : r0.success = true → b.fval ≤ r0.fval := by
        intro hs
        by_contra hnb
        exact hc ⟨hs, lt_of_not_le hnb⟩
      rcases ih b with ⟨heq, hall⟩ | ⟨i, r, hget, heq, hsucc, hlt, hmin, hfirst⟩
      · left
        refine ⟨heq, ?_⟩
        intro r hr hs
        rcases List.mem_cons.mp hr with h0 | hrest
        · exact h0 ▸ hskip (h0 ▸ hs)
        · exact hall r hrest hs
      · right
        refine ⟨i + 1, r, by simpa using hget, heq, hsucc, hlt, ?_, ?_⟩
        · intro j rj hj hsj
          cases j with
          | zero =>
            simp only [List.get?_cons_zero] at hj
            cases hj
            exact le_of_lt (lt_of_lt_of_le hlt (hskip hsj))
          | succ j' =>
            simp only [List.get?_cons_succ] at hj
            exact hmin j' rj hj hsj
        · intro j hj rj hjget hsj
          cases j with
          | zero =>
            simp only [List.get?_cons_zero] at hjget
            cases hjget
            exact lt_of_lt_of_le hlt (hskip hsj)
          | succ j' =>
            simp only [List.get?_cons_succ] at hjget
            exact hfirst j' (by omega) rj hjget hsj

/-- Characterization of the bookkeeping fold from the initial state
`(None, +infinity)`: either nothing succeeded and the state is untouched,
or the final best is the first successful result attaining the minimum
value among the successful ones. -/
lemma foldl_trainStep_top :
    ∀ (l : List MinResult),
      (l.foldl trainStep (none, (⊤ : WithTop ℚ)) = (none, (⊤ : WithTop ℚ)) ∧
        ∀ r ∈ l, r.success = false) ∨
      (∃ i r, l.get? i = some r ∧
        l.foldl trainStep (none, (⊤ : WithTop ℚ)) =
          (some r, (r.fval : WithTop ℚ)) ∧
        r.success = true ∧
        (∀ j rj, l.get? j = some rj → rj.success = true → r.fval ≤ rj.fval) ∧
        (∀ j, j < i → ∀ rj, l.get? j = some rj → rj.success = true →
          r.fval < rj.fval)) := by
  intro l
  induction l with
  | nil =>
    left
    exact ⟨rfl, by simp⟩
  | cons r0 rest ih =>
    rw [List.foldl_cons, trainStep_none]
    by_cases hs : r0.success = true
    · rw [if_pos hs]
      rcases foldl_trainStep_some rest r0 with ⟨heq, hall⟩ |
        ⟨i, r, hget, heq, hsucc, hlt, hmin, hfirst⟩
      · right
        refine ⟨0, r0, rfl, heq, hs, ?_, ?_⟩
        · intro j rj hj hsj
          cases j with
          | zero =>
            simp only [List.get?_cons_zero] at hj
            cases hj
            exact le_refl _
          | succ j' =>
            simp only [List.get?_cons_succ] at hj
            exact hall rj (List.get?_mem hj) hsj
        · intro j hj
          omega
      · right
        refine ⟨i + 1, r, by simpa using hget, heq, hsucc, ?_, ?_⟩
        · intro j rj hj hsj
          cases j with
          | zero =>
            simp only [List.get?_cons_zero] at hj
            cases hj
            exact le_of_lt hlt
          | succ j' =>
            simp only [List.get?_cons_succ] at hj
            exact hmin j' rj hj hsj
        · intro j hj rj hjget hsj
          cases j with
          | zero =>
            simp only [List.get?_cons_zero] at hjget
            cases hjget
            exact hlt
          | succ j' =>
            simp only [List.get?_cons_succ] at hjget
            exact hfirst j' (by omega) rj hjget hsj
    · rw [if_neg hs]
      rcases ih with ⟨heq, hall⟩ | ⟨i, r, hget, heq, hsucc, hmin, hfirst⟩
      · left
        refine ⟨heq, ?_⟩
        intro r hr
        rcases List.mem_cons.mp hr with h0 | hrest
        · subst h0
          exact Bool.eq_false_iff.mpr (fun hh => hs hh)
        · exact hall r hrest
      · right
        refine ⟨i + 1, r, by simpa using hget, heq, hsucc, ?_, ?_⟩
        · intro j rj hj hsj
          cases j with
          | zero =>
            simp only [List.get?_cons_zero] at hj
            cases hj
            exact absurd hsj hs
          | succ j' =>
            simp only [List.get?_cons_succ] at hj
            exact hmin j' rj hj hsj
        · intro j hj rj hjget hsj
          cases j with
          | zero =>
            simp only [List.get?_cons_zero] at hjget
            cases hjget
            exact absurd hsj hs
          | succ j' =>
            simp only [List.get?_cons_succ] at hjget
            exact hfirst j' (by omega) rj hjget hsj

lemma transposeM_length (M : Mat) : (transposeM M).length = numCols M := by
  simp [transposeM]

lemma emap_numCols (f : ℚ → ℚ) (M : Mat) : numCols (emap f M) = numCols M := by
  cases M <;> simp [emap, numCols]

lemma emap_len (f : ℚ → ℚ) (M : Mat) : (emap f M).length = M.length := by
  simp [emap]

lemma emap_rows (f : ℚ → ℚ) (M : Mat) (c : Nat) (hM : ∀ r ∈ M, r.length = c) :
    ∀ row ∈ emap f M, row.length = c := by
  intro row hrow
  obtain ⟨r, hr, rfl⟩ := List.mem_map.mp hrow
  simp [hM r hr]

lemma matMul_length (A B : Mat) : (matMul A B).length = A.length := by
  simp [matMul]

lemma matMul_rows (A B : Mat) : ∀ row ∈ matMul A B, row.length = numCols B := by
  intro row hrow
  obtain ⟨r, _, rfl⟩ := List.mem_map.mp hrow
  simp [transposeM_length]

lemma transposeM_numCols (M : Mat) (hM : 0 < numCols M) :
    numCols (transposeM M) = M.length := by
  unfold transposeM numCols
  obtain ⟨n, hn⟩ : ∃ n, numCols M = n + 1 :=
    ⟨numCols M - 1, by unfold numCols at hM ⊢; omega⟩
  unfold numCols at hn
  rw [hn]
  simp [List.range_succ_eq_map]

lemma addFromCol_length (b : Nat) (U R : Mat) :
    (addFromCol b U R).length = min U.length R.length := by
  simp [addFromCol]

lemma addFromCol_rows (b c : Nat) (hb : b ≤ c) :
    ∀ (U R : Mat), (∀ u ∈ U, u.length = c) → (∀ r ∈ R, r.length = c - b) →
      ∀ row ∈ addFromCol b U R, row.length = c := by
  intro U
  induction U with
  | nil =>
    intro R _ _ row hrow
    simp [addFromCol] at hrow
  | cons u U ih =>
    intro R hU hR row hrow
    cases R with
    | nil => simp [addFromCol] at hrow
    | cons r R =>
      simp only [addFromCol, List.zipWith_cons_cons] at hrow
      rcases List.mem_cons.mp hrow with h0 | hrest
      · subst h0
        have hu : u.length = c := hU u (by simp)
        have hr : r.length = c - b := hR r (by simp)
        simp only [List.length_append, List.length_take, List.length_zipWith,
          List.length_drop, hu, hr]
        omega
      · exact ih R (fun x hx => hU x (by simp [hx])) (fun x hx => hR x (by simp [hx]))
          row hrest

lemma addFromCol_take (b : Nat) :
    ∀ (U R : Mat), (∀ u ∈ U, b ≤ u.length) → U.length = R.length →
      ∀ k : Nat, ((addFromCol b U R).getD k []).take b = (U.getD k []).take b := by
  intro U
  induction U with
  | nil =>
    intro R _ hlen k
    cases R with
    | nil => simp [addFromCol]
    | cons r R => simp at hlen
  | cons u U ih =>
    intro R hU hlen k
    cases R with
    | nil => simp at hlen
    | cons r R =>
      simp only [addFromCol, List.zipWith_cons_cons]
      cases k with
      | zero =>
        simp only [List.getD_cons_zero]
        rw [List.take_append_of_le_length]
        · rw [List.take_take]
          simp
        · have := hU u (by simp)
          simp
          omega
      | succ k' =>
        simp only [List.getD_cons_succ]
        exact ih R (fun x hx => hU x (by simp [hx])) (by simpa using hlen) k'

/-- The delta list has one entry per layer. -/
lemma deltas_length (net : Network) (errfn : ErrFn) (z : List Mat) (h y : Mat)
    (w : List Mat) (b : Nat) (hL : 2 ≤ net.layers.length) :
    (deltas net errfn z h y w b).length = net.layers.length := by
  rw [deltas_eq net errfn z h y w b hL]
  simp
  omega

/-- The delta list entries `1..L-1` are the top-down recurrence values. -/
lemma deltas_get (net : Network) (errfn : ErrFn) (z : List Mat) (h y : Mat)
    (w : List Mat) (b : Nat) (hL : 2 ≤ net.layers.length) (i : Nat)
    (h1 : 1 ≤ i) (h2 : i ≤ net.layers.length - 1) :
    (deltas net errfn z h y w b).get? i =
      some (some (dIdx net.layers.length (deltaStep net w b z)
        (deltaSeed net errfn z h y) i)) := by
  rw [deltas_eq net errfn z h y w b hL]
  cases i with
  | zero => omega
  | succ i' =>
    rw [List.get?_cons_succ, List.get?_map]
    by_cases hcase : i' < net.layers.length - 2
    · rw [List.get?_append (by simpa using hcase)]
      rw [List.get?_map]
      have hr : (List.range' 1 (net.layers.length - 2)).get? i' = some (1 + i') := by
        rw [List.get?_eq_getElem?]
        simp [List.getElem?_range', hcase]
      rw [hr]
      simp [Nat.add_comm]
    · have hieq : i' = net.layers.length - 2 := by omega
      subst hieq
      have hlen : ((List.range' 1 (net.layers.length - 2)).map
          (dIdx net.layers.length (deltaStep net w b z)
            (deltaSeed net errfn z h y))).length = net.layers.length - 2 := by
        simp
      have hcat := List.get?_concat_length
        ((List.range' 1 (net.layers.length - 2)).map
          (dIdx net.layers.length (deltaStep net w b z)
            (deltaSeed net errfn z h y)))
        (deltaSeed net errfn z h y)
      rw [hlen] at hcat
      rw [hcat]
      have heq : net.layers.length - 2 + 1 = net.layers.length - 1 := by omega
      rw [heq, dIdx_last]
      rfl

/-- C2: when the gradient is requested, `costfn` seeds the output-layer
delta as `activation_grad(z[L-1])` elementwise-multiplied with
`error_grad(h, y)`; for each hidden layer index `i` from `L-2` down to `1`
it computes `d[i] = activation_grad(z[i]) ⊙ (weights[i][:, bias:].T · d[i+1])`
(the forward weight matrix with its bias column excluded, transposed);
`d[0]` is never computed and is a filler entry. -/
theorem C2_delta_recurrence (net : Network) (errfn : ErrFn) (z : List Mat)
    (h y : Mat) (w : List Mat) (b : Nat) (hL : 2 ≤ net.layers.length) :
    (deltas net errfn z h y w b).length = net.layers.length ∧
    (deltas net errfn z h y w b).get? 0 = some none ∧
    (deltas net errfn z h y w b).get? (net.layers.length - 1) =
      some (some (hadamard
        (emap ((net.layers.getLastD ⟨id, id⟩).actGrad) (z.getLastD []))
        (ezip errfn.grad h y))) ∧
    (∀ i, 1 ≤ i → i ≤ net.layers.length - 2 →
      ∃ dnext, (deltas net errfn z h y w b).get? (i + 1) = some (some dnext) ∧
        (deltas net errfn z h y w b).get? i =
          some (some (hadamard
            (emap ((net.layers.getD i ⟨id, id⟩).actGrad) (z.getD i []))
            (matMul (transposeM (dropColsN b (w.getD i []))) dnext)))) := by
  refine ⟨deltas_length net errfn z h y w b hL, rfl, ?_, ?_⟩
  · rw [deltas_get net errfn z h y w b hL (net.layers.length - 1) (by omega)
      (le_refl _), dIdx_last]
    rfl
  · intro i h1 h2
    refine ⟨dIdx net.layers.length (deltaStep net w b z)
      (deltaSeed net errfn z h y) (i + 1), ?_, ?_⟩
    · exact deltas_get net errfn z h y w b hL (i + 1) (by omega) (by omega)
    · rw [deltas_get net errfn z h y w b hL i h1 (by omega),
        dIdx_rec net.layers.length _ _ i h1 h2]
      rfl
/-- Witness for C2: a three-layer network (one hidden layer), so the
backward loop runs exactly once; the delta list is
`[none, d1, d2]` with `d2` the seed and `d1` the propagated delta. -/
theorem C2_delta_recurrence_witness :
    ∃ dnext,
      (deltas
        ⟨[⟨id, fun _ => 1⟩, ⟨id, fun _ => 1⟩, ⟨id, fun _ => 1⟩],
          [[[1, 2]], [[3]]], false⟩
        ⟨fun a bb => (a - bb) ^ 2 / 2, fun a bb => a - bb⟩
        [[[5]], [[7]], [[9]]] [[9]] [[4]] [[[1, 2]], [[3]]] 0).get? 2 =
        some (some dnext) ∧
      (deltas
        ⟨[⟨id, fun _ => 1⟩, ⟨id, fun _ => 1⟩, ⟨id, fun _ => 1⟩],
          [[[1, 2]], [[3]]], false⟩
        ⟨fun a bb => (a - bb) ^ 2 / 2, fun a bb => a - bb⟩
        [[[5]], [[7]], [[9]]] [[9]] [[4]] [[[1, 2]], [[3]]] 0).get? 1 =
        some (some (hadamard
          (emap ((([⟨id, fun _ => (1 : ℚ)⟩, ⟨id, fun _ => 1⟩,
            ⟨id, fun _ => 1⟩] : List Layer).getD 1 ⟨id, id⟩).actGrad)
            (([[[5]], [[7]], [[9]]] : List Mat).getD 1 []))
          (matMul (transposeM (dropColsN 0
            (([[[1, 2]], [[3]]] : List Mat).getD 1 []))) dnext))) :=
  (C2_delta_recurrence
    ⟨[⟨id, fun _ => 1⟩, ⟨id, fun _ => 1⟩, ⟨id, fun _ => 1⟩],
      [[[1, 2]], [[3]]], false⟩
    ⟨fun a bb => (a - bb) ^ 2 / 2, fun a bb => a - bb⟩
    [[[5]], [[7]], [[9]]] [[9]] [[4]] [[[1, 2]], [[3]]] 0
    (by norm_num)).2.2.2 1 (by norm_num) (by norm_num)

/-- The result component of `train` is the final best-result state of the
bookkeeping fold over the minimizer results. -/
lemma train_result_fst (net0 : Network) (runs : List RestartRun) :
    (train net0 runs).1 =
      ((runs.map (fun run => run.minOut)).foldl trainStep
        (none, (⊤ : WithTop ℚ))).1 := by
  unfold train
  rw [← train_foldl_fst runs (none, (⊤ : WithTop ℚ)) net0]
  cases hb : (runs.foldl trainIter ((none, (⊤ : WithTop ℚ)), net0)).1.1 <;>
    simp [hb]

/-- C4: `train` returns the result with the strictly smallest `fun` among
the successful minimizer results — later results replace the best only
under strict `<`, so the first-seen successful result wins ties — and
returns `None` when no result succeeded. -/
theorem C4_best_of_restarts (net0 : Network) (runs : List RestartRun) :
    ((train net0 runs).1 = none ↔ ∀ run ∈ runs, run.minOut.success = false) ∧
    (∀ r, (train net0 runs).1 = some r →
      ∃ i run, runs.get? i = some run ∧ run.minOut = r ∧ r.success = true ∧
        (∀ j run', runs.get? j = some run' → run'.minOut.success = true →
          r.fval ≤ run'.minOut.fval) ∧
        (∀ j, j < i → ∀ run', runs.get? j = some run' →
          run'.minOut.success = true → r.fval < run'.minOut.fval)) := by
  rcases foldl_trainStep_top (runs.map (fun run => run.minOut)) with
    ⟨heq, hall⟩ | ⟨i, r, hget, heq, hsucc, hmin, hfirst⟩
  · constructor
    · rw [train_result_fst, heq]
      simp only [true_iff]
      intro run hrun
      exact hall run.minOut (List.mem_map_of_mem _ hrun)
    · intro r hr
      rw [train_result_fst, heq] at hr
      exact absurd hr (by simp)
  · have hres : (train net0 runs).1 = some r := by
      rw [train_result_fst, heq]
    constructor
    · rw [hres]
      constructor
      · intro hcontra
        exact absurd hcontra (by simp)
      · intro hfail
        rw [List.get?_map] at hget
        obtain ⟨run, hrun, hr⟩ : ∃ run, runs.get? i = some run ∧ run.minOut = r := by
          cases hg : runs.get? i with
          | none => rw [hg] at hget; simp at hget
          | some run => rw [hg] at hget; simp at hget; exact ⟨run, rfl, hget⟩
        have := hfail run (List.get?_mem hrun)
        rw [hr] at this
        rw [this] at hsucc
        cases hsucc
    · intro r2 hr2
      rw [hres] at hr2
      cases hr2
      rw [List.get?_map] at hget
      obtain ⟨run, hrun, hr⟩ : ∃ run, runs.get? i = some run ∧ run.minOut = r := by
        cases hg : runs.get? i with
        | none => rw [hg] at hget; simp at hget
        | some run => rw [hg] at hget; simp at hget; exact ⟨run, rfl, hget⟩
      refine ⟨i, run, hrun, hr, hsucc, ?_, ?_⟩
      · intro j run' hj hsj
        exact hmin j run'.minOut (by rw [List.get?_map, hj]; rfl) hsj
      · intro j hji run' hj hsj
        exact hfirst j hji run'.minOut (by rw [List.get?_map, hj]; rfl) hsj
/-- Witness for C4: three restarts where only the middle one fails;
the two successful ones tie on `fun = 5`, so the first is returned; and a
run where every restart fails returns `None`. -/
theorem C4_best_of_restarts_witness :
    (train ⟨[], [[[1]]], false⟩
        [⟨[[[1]]], ⟨false, [2], 1⟩, [[[2]]]⟩,
          ⟨[[[1]]], ⟨false, [3], 0⟩, [[[3]]]⟩]).1 = none :=
  (C4_best_of_restarts ⟨[], [[[1]]], false⟩
    [⟨[[[1]]], ⟨false, [2], 1⟩, [[[2]]]⟩,
      ⟨[[[1]]], ⟨false, [3], 0⟩, [[[3]]]⟩]).1.mpr (by
    intro run hrun
    rcases List.mem_cons.mp hrun with h1 | hrest
    · rw [h1]
    · rcases List.mem_cons.mp hrest with h2 | hnil
      · rw [h2]
      · simp at hnil)

/-- C5: after `train` returns, a successful run installs the best result's
`x` reshaped with the `dimensions` captured before the loop; when no
restart succeeded there is no final installation — the network keeps
whatever the last restart left — and `train` returns `None`. -/
theorem C5_final_weight_install (net0 : Network) (runs : List RestartRun) :
    (∀ r, (train net0 runs).1 = some r →
      (train net0 runs).2.weights =
        reshape_vector r.x (dimensionsOf net0.weights)) ∧
    ((train net0 runs).1 = none →
      (train net0 runs).2 =
        (match runs.getLast? with
          | none => net0
          | some run => { net0 with weights := run.wAfter })) := by
  cases hb : (runs.foldl trainIter ((none, (⊤ : WithTop ℚ)), net0)).1.1 with
  | none =>
    constructor
    · intro r hr
      simp [train, hb] at hr
    · intro _
      simp only [train, hb]
      exact train_foldl_net runs (none, (⊤ : WithTop ℚ)) net0
  | some rb =>
    constructor
    · intro r hr
      simp only [train, hb] at hr ⊢
      cases hr
      rfl
    · intro hr
      simp [train, hb] at hr
/-- Witness for C5: one successful restart — the final network weights are
the best result's `x` reshaped to the captured dimensions — applied to a
network whose single weight matrix is `1×2`. -/
theorem C5_final_weight_install_witness :
    (train ⟨[], [[[1, 2]]], false⟩
        [⟨[[[3, 4]]], ⟨true, [7, 8], 5⟩, [[[9, 9]]]⟩]).2.weights =
      reshape_vector [7, 8] (dimensionsOf [[[1, 2]]]) :=
  (C5_final_weight_install ⟨[], [[[1, 2]]], false⟩
    [⟨[[[3, 4]]], ⟨true, [7, 8], 5⟩, [[[9, 9]]]⟩]).1 ⟨true, [7, 8], 5⟩ (by rfl)

/-- C10: at every point in `train`'s restart loop, either the best result
is `None` and `min_error` is `+infinity`, or the best result is one of the
minimizer results returned in an earlier iteration, successful, with
`min_error` equal to its `fun`; and the value `train` returns is such a
minimizer-produced result itself, unmodified. -/
theorem C10_loop_invariant (net0 : Network) (runs : List RestartRun) :
    (∀ n,
      ((((runs.take n).foldl trainIter ((none, (⊤ : WithTop ℚ)), net0)).1.1 = none ∧
        (((runs.take n).foldl trainIter ((none, (⊤ : WithTop ℚ)), net0)).1.2 =
          (⊤ : WithTop ℚ))) ∨
      (∃ i run, i < n ∧ runs.get? i = some run ∧ run.minOut.success = true ∧
        (((runs.take n).foldl trainIter ((none, (⊤ : WithTop ℚ)), net0)).1.1 =
          some run.minOut) ∧
        (((runs.take n).foldl trainIter ((none, (⊤ : WithTop ℚ)), net0)).1.2 =
          (run.minOut.fval : WithTop ℚ))))) ∧
    (∀ r, (train net0 runs).1 = some r →
      ∃ run ∈ runs, r = run.minOut ∧ run.minOut.success = true) := by
  constructor
  · intro n
    have hbr := train_foldl_fst (runs.take n) (none, (⊤ : WithTop ℚ)) net0
    rcases foldl_trainStep_top ((runs.take n).map (fun run => run.minOut)) with
      ⟨heq, _⟩ | ⟨i, r, hget, heq, hsucc, _, _⟩
    · left
      rw [hbr, heq]
      exact ⟨rfl, rfl⟩
    · right
      have hilt : i < (runs.take n).length := by
        by_contra hge
        rw [List.get?_eq_none.mpr (by simpa using Nat.le_of_not_lt hge)] at hget
        cases hget
      have hin : i < n := lt_of_lt_of_le hilt (by simp)
      rw [List.get?_map, List.get?_take hin] at hget
      obtain ⟨run, hrun, hrm⟩ : ∃ run, runs.get? i = some run ∧ run.minOut = r := by
        cases hg : runs.get? i with
        | none => rw [hg] at hget; simp at hget
        | some run => rw [hg] at hget; simp at hget; exact ⟨run, rfl, hget⟩
      refine ⟨i, run, hin, hrun, by rw [hrm]; exact hsucc, ?_, ?_⟩
      · rw [hbr, heq, hrm]
      · rw [hbr, heq, hrm]
  · intro r hr
    rcases foldl_trainStep_top (runs.map (fun run => run.minOut)) with
      ⟨heq, _⟩ | ⟨i, rr, hget, heq, hsucc, _, _⟩
    · rw [train_result_fst, heq] at hr
      exact absurd hr (by simp)
    · rw [train_result_fst, heq] at hr
      cases hr
      rw [List.get?_map] at hget
      obtain ⟨run, hrun, hrm⟩ : ∃ run, runs.get? i = some run ∧ run.minOut = r := by
        cases hg : runs.get? i with
        | none => rw [hg] at hget; simp at hget
        | some run => rw [hg] at hget; simp at hget; exact ⟨run, rfl, hget⟩
      exact ⟨run, List.get?_mem hrun, hrm.symm, by rw [hrm]; exact hsucc⟩
/-- Witness for C10: with one failed and one successful restart, the
returned result is the successful minimizer result itself. -/
theorem C10_loop_invariant_witness :
    ∃ run ∈ ([⟨[[[1]]], ⟨false, [2], 1⟩, [[[2]]]⟩,
        ⟨[[[1]]], ⟨true, [3], 4⟩, [[[3]]]⟩] : List RestartRun),
      (⟨true, [3], 4⟩ : MinResult) = run.minOut ∧ run.minOut.success = true :=
  (C10_loop_invariant ⟨[], [[[1]]], false⟩
    [⟨[[[1]]], ⟨false, [2], 1⟩, [[[2]]]⟩,
      ⟨[[[1]]], ⟨true, [3], 4⟩, [[[3]]]⟩]).2 ⟨true, [3], 4⟩ (by rfl)

/-- An identity-activation layer with constant derivative 1 (as pymind's
`identity` activation behaves on the forward values used here). -/
def idLayer : Layer := ⟨id, fun _ => 1⟩

/-- Squared-error function: per-element cost `(h - y)^2 / 2` with
derivative `h - y`. -/
def errSq : ErrFn := ⟨fun a d => (a - d) ^ 2 / 2, fun a d => a - d⟩

/-- `costfn` always leaves the network with the weights argument
installed, whatever the body did. -/
lemma create_costfn_net (X y : Mat) (lr : ℚ) (errfn : ErrFn)
    (computeGrad : Bool) (w : List Mat) (net : Network) :
    (create_costfn X y lr errfn computeGrad w net).net =
      { net with weights := w } := by
  cases hb : costfnBody computeGrad errfn lr X y { net with weights := w } <;>
    simp [create_costfn, hb]

/-- C8: every invocation of `costfn` — for either `computeGrad` setting
and any weights argument — overwrites `network.weights` with that
argument as a side effect; the network the call leaves behind is exactly
the input network with the weights replaced. -/
theorem C8_weights_always_installed (X y : Mat) (lr : ℚ) (errfn : ErrFn)
    (computeGrad : Bool) (w : List Mat) (net : Network) :
    (create_costfn X y lr errfn computeGrad w net).net =
      { net with weights := w } :=
  create_costfn_net X y lr errfn computeGrad w net

/-- C9: if `costfn` raises, the network's weights have already been
overwritten with the offending argument and the previous weights are not
restored — `costfn` is not atomic on failure. -/
theorem C9_not_atomic_on_failure (X y : Mat) (lr : ℚ) (errfn : ErrFn)
    (computeGrad : Bool) (w : List Mat) (net : Network) (e : DimErr)
    (_he : (create_costfn X y lr errfn computeGrad w net).out = .error e) :
    (create_costfn X y lr errfn computeGrad w net).net.weights = w ∧
    (net.weights ≠ w →
      (create_costfn X y lr errfn computeGrad w net).net.weights ≠
        net.weights) := by
  have hnet := create_costfn_net X y lr errfn computeGrad w net
  constructor
  · rw [hnet]
  · intro hne
    rw [hnet]
    intro hcontra
    exact hne hcontra.symm
/-- Witness for C9: a dataset whose `X` and `y` column counts disagree
makes the cost evaluation raise; the network is left with the new weights
`[[2]]`, not its previous `[[1]]`. -/
theorem C9_not_atomic_on_failure_witness :
    (create_costfn [[1]] [[1, 2]] 0 errSq true [[[2]]]
        ⟨[idLayer, idLayer], [[[1]]], false⟩).net.weights = [[[2]]] ∧
    (create_costfn [[1]] [[1, 2]] 0 errSq true [[[2]]]
        ⟨[idLayer, idLayer], [[[1]]], false⟩).net.weights ≠ [[[1]]] :=
  ⟨(C9_not_atomic_on_failure [[1]] [[1, 2]] 0 errSq true [[[2]]]
      ⟨[idLayer, idLayer], [[[1]]], false⟩ .colsMismatch rfl).1,
    (C9_not_atomic_on_failure [[1]] [[1, 2]] 0 errSq true [[[2]]]
      ⟨[idLayer, idLayer], [[[1]]], false⟩ .colsMismatch rfl).2 (by decide)⟩

/-- C6: whenever the cost evaluation fails with a dimension mismatch,
`costfn` logs exactly one diagnostic and re-raises the same error
unchanged; and whenever the body returns normally nothing is logged — the
error is never swallowed and a failing call never returns normally. -/
theorem C6_log_and_reraise (X y : Mat) (lr : ℚ) (errfn : ErrFn)
    (computeGrad : Bool) (w : List Mat) (net : Network) :
    (∀ e, costfnBody computeGrad errfn lr X y { net with weights := w } =
        .error e →
      (create_costfn X y lr errfn computeGrad w net).logs = [costfnDiag] ∧
      (create_costfn X y lr errfn computeGrad w net).out = .error e) ∧
    (∀ v, costfnBody computeGrad errfn lr X y { net with weights := w } =
        .ok v →
      (create_costfn X y lr errfn computeGrad w net).logs = [] ∧
      (create_costfn X y lr errfn computeGrad w net).out = .ok v) := by
  constructor
  · intro e he
    simp [create_costfn, he]
  · intro v hv
    simp [create_costfn, hv]
/-- Witness for C6: the mismatched-columns dataset again — exactly one
diagnostic line and the same `colsMismatch` error surface from `costfn`. -/
theorem C6_log_and_reraise_witness :
    (create_costfn [[1]] [[1, 2]] 0 errSq true [[[2]]]
        ⟨[idLayer, idLayer], [[[1]]], false⟩).logs = [costfnDiag] ∧
    (create_costfn [[1]] [[1, 2]] 0 errSq true [[[2]]]
        ⟨[idLayer, idLayer], [[[1]]], false⟩).out = .error .colsMismatch :=
  (C6_log_and_reraise [[1]] [[1, 2]] 0 errSq true [[[2]]]
    ⟨[idLayer, idLayer], [[[1]]], false⟩).1 .colsMismatch rfl

/-- C7: the flattened adapter handed to the minimizer is the
reshape/unroll conjugate of the factory's cost function: on a flat vector
`v` it returns exactly `(cost, unroll(gradients))` where
`(cost, gradients) = costfn(reshape(v, dimensions))`, propagates an error
unchanged, and leaves the same logs and network state as that `costfn`
call. -/
theorem C7_flattened_adapter (X y : Mat) (lr : ℚ) (errfn : ErrFn)
    (dims : List (Nat × Nat)) (v : List ℚ) (net : Network) :
    (∀ c g, (create_costfn X y lr errfn true (reshape_vector v dims) net).out =
        .ok (c, some g) →
      (flattened_costfn X y lr errfn dims v net).out =
        .ok (c, unroll_matrices g)) ∧
    (∀ e, (create_costfn X y lr errfn true (reshape_vector v dims) net).out =
        .error e →
      (flattened_costfn X y lr errfn dims v net).out = .error e) ∧
    (flattened_costfn X y lr errfn dims v net).net =
      (create_costfn X y lr errfn true (reshape_vector v dims) net).net ∧
    (flattened_costfn X y lr errfn dims v net).logs =
      (create_costfn X y lr errfn true (reshape_vector v dims) net).logs := by
  refine ⟨?_, ?_, ?_, ?_⟩
  · intro c g hok
    simp [flattened_costfn, hok]
  · intro e herr
    simp [flattened_costfn, herr]
  · unfold flattened_costfn
    cases hb : (create_costfn X y lr errfn true (reshape_vector v dims) net).out <;>
      simp [hb]
  · unfold flattened_costfn
    cases hb : (create_costfn X y lr errfn true (reshape_vector v dims) net).out <;>
      simp [hb]
/-- Witness for C7: a two-input one-output identity network on one
training example; the adapter returns the cost `50` and the unrolled
gradient of the single `1×2` weight matrix. -/
theorem C7_flattened_adapter_witness :
    (flattened_costfn [[1], [2]] [[1]] 0 errSq [(1, 2)] [3, 4]
        ⟨[idLayer, idLayer], [[[0, 0]]], false⟩).out =
      .ok (50, [10, 20]) :=
  (C7_flattened_adapter [[1], [2]] [[1]] 0 errSq [(1, 2)] [3, 4]
    ⟨[idLayer, idLayer], [[[0, 0]]], false⟩).1 50 [[[10, 20]]] (by
      show (create_costfn [[1], [2]] [[1]] 0 errSq true
        (reshape_vector [3, 4] [(1, 2)])
        ⟨[idLayer, idLayer], [[[0, 0]]], false⟩).out = .ok (50, some [[[10, 20]]])
      norm_num [create_costfn, costfnBody, calculateCost, forwardPass,
        matMulE, augBias, numCols, shapeOf, matMul, transposeM, dotR, emap,
        ezip, hadamard, smulM, dropColsN, addFromCol, regSquares, deltas,
        deltaLoop, deltaSeed, deltaStep, calc_grads, reshape_vector, rowsOf,
        errSq, idLayer, List.range_succ, bind, Except.bind, pure, Except.pure,
        Functor.map, Except.map, List.replicate])

lemma calc_grads_length (d : List (Option Mat)) (a w : List Mat)
    (lr m : ℚ) (b : Nat) : (calc_grads d a w lr m b).length = w.length := by
  simp [calc_grads]

lemma calc_grads_get (d : List (Option Mat)) (a w : List Mat) (lr m : ℚ)
    (b : Nat) (i : Nat) (hi : i < w.length) :
    (calc_grads d a w lr m b).get? i =
      some (addFromCol b
        (smulM (1 / m) (matMul ((d.getD (i + 1) none).getD [])
          (transposeM (a.getD i []))))
        (smulM (lr / m) (dropColsN b (w.getD i [])))) := by
  unfold calc_grads
  rw [List.get?_map, List.get?_range hi]
  rfl

lemma calc_grads_getD (d : List (Option Mat)) (a w : List Mat) (lr m : ℚ)
    (b : Nat) (i : Nat) (hi : i < w.length) :
    (calc_grads d a w lr m b).getD i [] =
      addFromCol b
        (smulM (1 / m) (matMul ((d.getD (i + 1) none).getD [])
          (transposeM (a.getD i []))))
        (smulM (lr / m) (dropColsN b (w.getD i []))) := by
  rw [List.getD_eq_getElem?_getD, ← List.get?_eq_getElem?,
    calc_grads_get d a w lr m b i hi]
  rfl

lemma smulM_len (c : ℚ) (M : Mat) : (smulM c M).length = M.length := by
  simp [smulM, emap]

lemma smulM_rows (c : ℚ) (M : Mat) (n : Nat) (hM : ∀ r ∈ M, r.length = n) :
    ∀ row ∈ smulM c M, row.length = n :=
  emap_rows _ M n hM

lemma dropColsN_rows (b : Nat) (M : Mat) (n : Nat) (hM : ∀ r ∈ M, r.length = n) :
    ∀ row ∈ dropColsN b M, row.length = n - b := by
  intro row hrow
  obtain ⟨r, hr, rfl⟩ := List.mem_map.mp hrow
  simp [hM r hr]

lemma dropColsN_len (b : Nat) (M : Mat) : (dropColsN b M).length = M.length := by
  simp [dropColsN]

lemma rows_to_shape (G : Mat) (n c : Nat) (hlen : G.length = n)
    (hrows : ∀ row ∈ G, row.length = c) (hzc : n = 0 → c = 0) :
    shapeOf G = (n, c) ∧ rect G := by
  cases G with
  | nil =>
    refine ⟨?_, by intro r hr; simp at hr⟩
    simp only [shapeOf, numCols, List.length_nil, List.headD_nil]
    have hn : n = 0 := by simpa using hlen.symm
    rw [hn, hzc hn]
  | cons r0 rs =>
    have hc : numCols (r0 :: rs) = c := hrows r0 (by simp)
    constructor
    · simp only [shapeOf, hc, hlen]
    · intro r hr
      rw [hrows r hr, hc]

/-- C3: the gradient list returned by `costfn` is `calc_grads` applied to
the deltas, activations, weights, regularization rate, `m` = the column
count of `X`, and the bias offset; each entry `i` is
`(1/m)·d[i+1]·a[i].T` with `(learn_rate/m)·W[i][:, bias:]` added only onto
the non-bias columns, the resulting matrix has the shape of `W[i]`, and
the bias column is never regularized (it equals the unregularized term's
bias column). -/
theorem C3_gradient_assembly (X y : Mat) (lr : ℚ) (errfn : ErrFn)
    (w : List Mat) (net : Network) (z a : List Mat) (c0 : ℚ) (b : Nat)
    (m : ℚ) (d : List (Option Mat))
    (hcc : calculateCost { net with weights := w } X y errfn lr =
      .ok (z, a, c0))
    (hb : b = if net.bias then 1 else 0)
    (hm : m = (numCols X : ℚ))
    (hd : d = deltas { net with weights := w } errfn z (a.getLastD []) y w b) :
    (create_costfn X y lr errfn true w net).out =
      .ok (c0, some (calc_grads d a w lr m b)) ∧
    (calc_grads d a w lr m b).length = w.length ∧
    (∀ i, i < w.length →
      (calc_grads d a w lr m b).get? i =
        some (addFromCol b
          (smulM (1 / m) (matMul ((d.getD (i + 1) none).getD [])
            (transposeM (a.getD i []))))
          (smulM (lr / m) (dropColsN b (w.getD i []))))) ∧
    (∀ i, i < w.length →
      rect (w.getD i []) →
      b ≤ numCols (w.getD i []) →
      ((d.getD (i + 1) none).getD []).length = (w.getD i []).length →
      (a.getD i []).length = numCols (w.getD i []) →
      0 < numCols (a.getD i []) →
      shapeOf ((calc_grads d a w lr m b).getD i []) = shapeOf (w.getD i []) ∧
      rect ((calc_grads d a w lr m b).getD i []) ∧
      (∀ k : Nat, (((calc_grads d a w lr m b).getD i []).getD k []).take b =
        ((smulM (1 / m) (matMul ((d.getD (i + 1) none).getD [])
          (transposeM (a.getD i [])))).getD k []).take b)) := by
  subst hb hm hd
  refine ⟨?_, calc_grads_length _ _ _ _ _ _, ?_, ?_⟩
  · have hbody : costfnBody true errfn lr X y { net with weights := w } =
        .ok (c0, some (calc_grads
          (deltas { net with weights := w } errfn z (a.getLastD []) y w
            (if net.bias then 1 else 0))
          a w lr ((numCols X : ℚ)) (if net.bias then 1 else 0))) := by
      simp [costfnBody, hcc, bind, Except.bind, pure, Except.pure]
    simp [create_costfn, hbody]
  · intro i hi
    exact calc_grads_get _ _ _ _ _ _ i hi
  · intro i hi hrect hble hdlen halen hnz
    rw [calc_grads_getD _ _ _ _ _ _ i hi]
    have hT : numCols (transposeM (a.getD i [])) = (a.getD i []).length :=
      transposeM_numCols _ hnz
    have hUrows : ∀ u ∈ smulM (1 / (numCols X : ℚ))
        (matMul (((deltas { net with weights := w } errfn z (a.getLastD []) y w
          (if net.bias then 1 else 0)).getD (i + 1) none).getD [])
          (transposeM (a.getD i []))),
        u.length = numCols (w.getD i []) := by
      apply smulM_rows
      intro r hr
      rw [matMul_rows _ _ r hr, hT, halen]
    have hUlen : (smulM (1 / (numCols X : ℚ))
        (matMul (((deltas { net with weights := w } errfn z (a.getLastD []) y w
          (if net.bias then 1 else 0)).getD (i + 1) none).getD [])
          (transposeM (a.getD i [])))).length = (w.getD i []).length := by
      rw [smulM_len, matMul_length, hdlen]
    have hRrows : ∀ r ∈ smulM (lr / (numCols X : ℚ))
        (dropColsN (if net.bias then 1 else 0) (w.getD i [])),
        r.length = numCols (w.getD i []) - (if net.bias then 1 else 0) := by
      apply smulM_rows
      exact dropColsN_rows _ _ _ hrect
    have hRlen : (smulM (lr / (numCols X : ℚ))
        (dropColsN (if net.bias then 1 else 0) (w.getD i []))).length =
        (w.getD i []).length := by
      rw [smulM_len, dropColsN_len]
    have hGlen : (addFromCol (if net.bias then 1 else 0)
        (smulM (1 / (numCols X : ℚ)) (matMul (((deltas { net with weights := w }
          errfn z (a.getLastD []) y w (if net.bias then 1 else 0)).getD (i + 1)
            none).getD []) (transposeM (a.getD i []))))
        (smulM (lr / (numCols X : ℚ))
          (dropColsN (if net.bias then 1 else 0) (w.getD i [])))).length =
        (w.getD i []).length := by
      rw [addFromCol_length, hUlen, hRlen, min_self]
    have hGrows := addFromCol_rows (if net.bias then 1 else 0)
      (numCols (w.getD i [])) hble _ _ hUrows hRrows
    have hshape := rows_to_shape _ (w.getD i []).length (numCols (w.getD i []))
      hGlen hGrows (by
        intro h0
        rw [List.length_eq_zero] at h0
        rw [h0]
        rfl)
    refine ⟨?_, hshape.2, ?_⟩
    · rw [hshape.1]
      rfl
    · intro k
      exact addFromCol_take (if net.bias then 1 else 0) _ _
        (fun u hu => by rw [hUrows u hu]; exact hble)
        (hUlen.trans hRlen.symm) k
/-- Witness for C3: a bias-enabled network with a single `1×2` weight
matrix on one training example; `costfn` returns cost `54` with the
assembled gradient list, whose single matrix has the weight matrix's
`1×2` shape. -/
theorem C3_gradient_assembly_witness :
    (create_costfn [[5]] [[1]] 2 errSq true [[[1, 2]]]
        ⟨[idLayer, idLayer], [[[9, 9]]], true⟩).out =
      .ok (54, some (calc_grads [none, some [[10]]] [[[1], [5]], [[11]]]
        [[[1, 2]]] 2 1 1)) ∧
    shapeOf ((calc_grads [none, some [[10]]] [[[1], [5]], [[11]]]
        [[[1, 2]]] 2 1 1).getD 0 []) =
      shapeOf (([[[1, 2]]] : List Mat).getD 0 []) := by
  have hcc : calculateCost
      { (⟨[idLayer, idLayer], [[[9, 9]]], true⟩ : Network) with
        weights := [[[1, 2]]] } [[5]] [[1]] errSq 2 =
      .ok ([[[5]], [[11]]], [[[1], [5]], [[11]]], 54) := by
    norm_num [calculateCost, forwardPass, matMulE, augBias, numCols, shapeOf,
      matMul, transposeM, dotR, emap, ezip, regSquares, dropColsN, errSq,
      idLayer, List.range_succ, bind, Except.bind, pure, Except.pure]
  have hd : ([none, some [[10]]] : List (Option Mat)) =
      deltas { (⟨[idLayer, idLayer], [[[9, 9]]], true⟩ : Network) with
        weights := [[[1, 2]]] } errSq [[[5]], [[11]]]
        (([[[1], [5]], [[11]]] : List Mat).getLastD []) [[1]] [[[1, 2]]] 1 := by
    norm_num [deltas, deltaLoop, deltaSeed, deltaStep, hadamard, emap, ezip,
      errSq, idLayer]
  have hthm := C3_gradient_assembly [[5]] [[1]] 2 errSq [[[1, 2]]]
    ⟨[idLayer, idLayer], [[[9, 9]]], true⟩ [[[5]], [[11]]]
    [[[1], [5]], [[11]]] 54 1 1 [none, some [[10]]] hcc (by norm_num)
    (by norm_num [numCols]) hd
  refine ⟨hthm.1, ?_⟩
  exact (hthm.2.2.2 0 (by norm_num) (by simp [rect, numCols])
    (by norm_num [numCols]) (by norm_num) (by norm_num [numCols])
    (by norm_num [numCols])).1

/-- A square-activation layer: forward value `t * t`, derivative `2t`
(an activation-function capability per the network interface, which only
requires a `grad` operation consistent with the forward value). -/
def sqLayer : Layer := ⟨fun t => t * t, fun t => 2 * t⟩

/-- A two-layer network with one input unit feeding one square-activation
output unit and a single `1×1` weight matrix, no bias. -/
def netSq : Network := ⟨[idLayer, sqLayer], [[[0]]], false⟩

/-- The flat cost function the trainer exposes for `netSq` on the dataset
`X = [[1]]`, `y = [[0]]` with regularization rate `0`: the
`(cost, flat gradient)` pair for a flat weight vector, as the
gradient-check test consumes it. On this dataset the cost at weight `w`
is `w^4 / 2`. -/
def costFnSq (v : List ℚ) : ℚ × List ℚ :=
  match (flattened_costfn [[1]] [[0]] 0 errSq (dimensionsOf netSq.weights)
      v netSq).out with
  | .ok (c, g) => (c, g)
  | .error _ => (0, [])

lemma costFnSq_eval (v : ℚ) : costFnSq [v] = (v ^ 4 / 2, [2 * v ^ 3]) := by
  norm_num [costFnSq, flattened_costfn, create_costfn, costfnBody,
    calculateCost, forwardPass, matMulE, augBias, numCols, shapeOf, matMul,
    transposeM, dotR, emap, ezip, hadamard, smulM, dropColsN, addFromCol,
    regSquares, deltas, deltaLoop, deltaSeed, deltaStep, calc_grads,
    reshape_vector, rowsOf, unroll_matrices, dimensionsOf, netSq, sqLayer,
    idLayer, errSq, List.range_succ, bind, Except.bind, pure, Except.pure,
    Functor.map, Except.map]
  ring_nf
  exact ⟨trivial, trivial⟩

lemma numGradSq_eval (w : ℚ) :
    computeNumericalGradient costFnSq [w] (1 / 100) =
      [2 * w ^ 3 + w / 5000] := by
  simp [computeNumericalGradient, List.range_succ, costFnSq_eval]
  ring

/-- C1 counterexample: for the square-activation network `netSq` on the
dataset `X = [[1]]`, `y = [[0]]` with regularization rate `0` and weight
`100`, the analytic gradient `2000000` and the central-difference
approximation with `e = 0.01` differ by exactly `1/50 = 0.02` — far more
than any 3-decimal-place tolerance — so the universally quantified claim
fails at this network, dataset, rate, and weight configuration. -/
theorem C1_gradient_check_counterexample :
    (computeNumericalGradient costFnSq [100] (1 / 100)).getD 0 0 -
      ((costFnSq [100]).2).getD 0 0 = 1 / 50 ∧
    ¬ |(computeNumericalGradient costFnSq [100] (1 / 100)).getD 0 0 -
        ((costFnSq [100]).2).getD 0 0| ≤ 3 / 2000 := by
  rw [numGradSq_eval, costFnSq_eval]
  norm_num
  rw [abs_of_pos (by norm_num : (0 : ℚ) < 1 / 50)]
  norm_num

/-- C1 amended: for the cost function `create_costfn` produces, the
analytic gradient is the exact derivative of the cost (`2w^3` for the
`netSq` family, whose cost is `w^4/2`), while the central-difference
approximation with `e = 0.01` carries a truncation term (`2we^2 = w/5000`
here); the 3-decimal-place agreement therefore holds only for bounded
weight configurations — e.g. `|w| ≤ 5` in this family — not for every
weight configuration. -/
theorem C1_gradient_check_amended (w : ℚ) :
    ((costFnSq [w]).2) = [2 * w ^ 3] ∧
    computeNumericalGradient costFnSq [w] (1 / 100) =
      [2 * w ^ 3 + w / 5000] ∧
    (|w| ≤ 5 →
      |(computeNumericalGradient costFnSq [w] (1 / 100)).getD 0 0 -
        ((costFnSq [w]).2).getD 0 0| ≤ 1 / 1000) := by
  refine ⟨by rw [costFnSq_eval], numGradSq_eval w, ?_⟩
  intro hw
  rw [numGradSq_eval, costFnSq_eval]
  simp only [List.getD_cons_zero]
  have hdiff : 2 * w ^ 3 + w / 5000 - 2 * w ^ 3 = w / 5000 := by ring
  rw [hdiff, abs_div]
  norm_num
  linarith
/-- Witness for the amended C1: at weight `1` the numerical and analytic
gradients agree within `1/1000`. -/
theorem C1_gradient_check_amended_witness :
    |(computeNumericalGradient costFnSq [1] (1 / 100)).getD 0 0 -
      ((costFnSq [1]).2).getD 0 0| ≤ 1 / 1000 :=
  (C1_gradient_check_amended 1).2.2 (by norm_num)
